import Mathlib

set_option maxRecDepth 100000

/-!
Verification of the thread segmenter in src/twitter_client.py
(the method _split_into_tweets and its helper find_sentence_boundary).

Strings are embedded as List Char.  The source counts characters with
the native string length, which this embedding mirrors with List.length.
The strip operation models str.strip restricted to the ASCII whitespace
characters, which covers every whitespace character the segmenter and
all inputs in these claims use.
-/

namespace Crobot

/-- Whitespace predicate used by str.strip (ASCII subset). -/
def pyIsSpace (c : Char) : Bool :=
  c == ' ' || c == '\t' || c == '\n' || c == '\r' || c == '\u000B' || c == '\u000C'

/-- Embedding of clean_and_trim, i.e. text.strip():
drop whitespace from the front, then from the back. -/
def pyStrip (l : List Char) : List Char :=
  ((l.dropWhile pyIsSpace).reverse.dropWhile pyIsSpace).reverse

/-- The two-character sentence endings listed in find_sentence_boundary:
period, exclamation mark or question mark, followed by a space or newline. -/
def sentenceEndings : List (List Char) :=
  [['.', ' '], ['!', ' '], ['?', ' '], ['.', '\n'], ['!', '\n'], ['?', '\n']]

/-- The check performed at scan position i of find_sentence_boundary:
whether the slice text[i-1:i+1] equals one of the sentence endings.
The scan only ever evaluates this at 1 <= i, which the first conjunct records. -/
def isTermAt (text : List Char) (i : Nat) : Bool :=
  decide (1 ≤ i) && sentenceEndings.contains ((text.drop (i - 1)).take 2)

/-- The check text[i] == a space, performed while remembering the word
boundary fallback.  At every reachable call site i is in range. -/
def spaceAt (text : List Char) (i : Nat) : Bool :=
  text.getD i '\u0000' == ' '

/-- The backward scan of find_sentence_boundary, the loop
for i in range(safe_max, -1, -1).  The first argument after text is the
value min(max_length - 20, len(text)) returned when the scan finds
neither a sentence ending nor a remembered word boundary; the counter is
the current position i and the last argument is best_split. -/
def boundaryScan (text : List Char) (fb : Nat) : Nat → Nat → Nat
  | 0, best => if 0 < best then best else fb
  | i + 1, best =>
    if isTermAt text (i + 1) then i + 1
    else if best == 0 && spaceAt text (i + 1) then boundaryScan text fb i (i + 1)
    else boundaryScan text fb i best

/-- Embedding of find_sentence_boundary(text, max_length).  The
subtraction max_length - 20 is Nat subtraction; the segmenter only calls
this with max_length = 260, where it agrees with the source arithmetic. -/
def findSentenceBoundary (text : List Char) (maxLength : Nat) : Nat :=
  if text.length ≤ maxLength then text.length
  else
    boundaryScan text (min (maxLength - 20) text.length) (min (maxLength - 20) text.length) 0

/-- Embedding of find_sentence_boundary over the integers of the source
language, exercised for non-positive max_length as well.  When
safe_max = min(max_length - 20, len(text)) is negative the loop
range(safe_max, -1, -1) is empty and the function returns
min(max_length - 20, len(text)) itself; otherwise it runs the same scan
as the Nat version. -/
def findSentenceBoundaryInt (text : List Char) (maxLength : Int) : Int :=
  if (text.length : Int) ≤ maxLength then (text.length : Int)
  else
    let safeMax : Int := min (maxLength - 20) (text.length : Int)
    if safeMax < 0 then safeMax
    else (boundaryScan text safeMax.toNat safeMax.toNat 0 : Int)

/-- TWEET_LIMIT = 260 in _split_into_tweets. -/
def TWEET_LIMIT : Nat := 260

/-- The split index chosen by one iteration of the main loop:
find_sentence_boundary followed by the emergency fallback
min(TWEET_LIMIT - 20, len(remaining)) when the result is 0. -/
def chooseSplit (r : List Char) : Nat :=
  let k := findSentenceBoundary r TWEET_LIMIT
  if k = 0 then min (TWEET_LIMIT - 20) r.length else k

/-- The main while loop of _split_into_tweets.  The loop strictly shrinks
the remaining text on every iteration (proved below), so running it with
fuel length + 1 reproduces the source loop exactly; the fuel-exhausted
branch is never reached. -/
def splitLoopF : Nat → List Char → List (List Char)
  | 0, _ => []
  | fuel + 1, remaining =>
    let r := pyStrip remaining
    if r.length = 0 then []
    else if r.length ≤ TWEET_LIMIT then [r]
    else
      let k := chooseSplit r
      pyStrip (r.take k) :: splitLoopF fuel (r.drop k)

/-- The verification loop after the main loop: for each tweet still over
TWEET_LIMIT, replace it by its first TWEET_LIMIT - 20 characters
(trimmed) and insert the trimmed remainder right after it; the iteration
then visits the inserted remainder next, exactly as the source loop over
the mutated list does.  Each such step removes at least 240 characters
from the text still to be visited, so the fuel below suffices and the
fuel-exhausted branch is never reached. -/
def repairF : Nat → List (List Char) → List (List Char)
  | 0, l => l
  | _ + 1, [] => []
  | fuel + 1, t :: rest =>
    if TWEET_LIMIT < t.length then
      pyStrip (t.take (TWEET_LIMIT - 20)) ::
        repairF fuel (pyStrip (t.drop (TWEET_LIMIT - 20)) :: rest)
    else t :: repairF fuel rest

/-- Total character count of a list of tweets. -/
def sumLen (l : List (List Char)) : Nat := (l.map List.length).sum

/-- The repair pass with sufficient fuel. -/
def repairPass (l : List (List Char)) : List (List Char) :=
  repairF (sumLen l + l.length + 1) l

/-- Embedding of _split_into_tweets(content): the main loop followed by
the verification pass. -/
def splitIntoTweets (content : List Char) : List (List Char) :=
  repairPass (splitLoopF (content.length + 1) content)

/-- The non-whitespace characters of a string, in order. -/
def keepNonSpace (l : List Char) : List Char :=
  l.filter (fun c => !pyIsSpace c)

/-- Rejoining fragments with single spaces, as in the idempotence claim. -/
def joinWithSpace : List (List Char) → List Char
  | [] => []
  | [t] => t
  | t :: rest => t ++ ' ' :: joinWithSpace rest

/-- The terminator predicate exactly as the specification words it:
a period, exclamation mark or question mark at position i - 1, with no
requirement on the following character.  Modelled from the spec for
comparison with isTermAt, which requires a following space or newline. -/
def specTermAt (text : List Char) (i : Nat) : Bool :=
  decide (1 ≤ i) && (text.getD (i - 1) '\u0000' ∈ (['.', '!', '?'] : List Char))

/-- A plain space at a position the backward scan actually examines. -/
def hasSpaceAt (text : List Char) (i : Nat) : Bool :=
  decide (1 ≤ i) && spaceAt text i

/-- Concrete scenario of claim C3: exactly 261 characters, with the
two-character sentence ending starting at index 254, so that the scan
position straddling it is 255. -/
def exampleD : List Char :=
  List.replicate 254 'a' ++ '.' :: ' ' :: List.replicate 5 'a'

/-- 261 characters whose only terminator punctuation, a period at index
100, is followed by a letter, and which contain no space. -/
def exampleBarePeriod : List Char :=
  List.replicate 100 'a' ++ '.' :: List.replicate 160 'b'

/-- 261 characters with a period followed by a space at indices 100 and
101, and no other space or terminator. -/
def exampleTermSpace : List Char :=
  List.replicate 100 'a' ++ '.' :: ' ' :: List.replicate 159 'b'

/-- 261 characters with a single space at index 100 and no sentence
terminator anywhere. -/
def exampleSpaceOnly : List Char :=
  List.replicate 100 'a' ++ ' ' :: List.replicate 160 'b'

/-! ### Basic lemmas about trimming and whitespace filtering -/

lemma dropWhile_length_le (p : Char → Bool) (l : List Char) :
    (l.dropWhile p).length ≤ l.length := by
  induction l with
  | nil => simp
  | cons a l ih =>
    by_cases h : p a
    · simp only [List.dropWhile, h, List.length_cons]; omega
    · simp [List.dropWhile, h]

lemma pyStrip_length_le (l : List Char) : (pyStrip l).length ≤ l.length := by
  unfold pyStrip
  calc ((l.dropWhile pyIsSpace).reverse.dropWhile pyIsSpace).reverse.length
      = ((l.dropWhile pyIsSpace).reverse.dropWhile pyIsSpace).length := by
        simp
    _ ≤ (l.dropWhile pyIsSpace).reverse.length := dropWhile_length_le _ _
    _ = (l.dropWhile pyIsSpace).length := by simp
    _ ≤ l.length := dropWhile_length_le _ _

lemma keepNonSpace_dropWhile (l : List Char) :
    keepNonSpace (l.dropWhile pyIsSpace) = keepNonSpace l := by
  induction l with
  | nil => rfl
  | cons a l ih =>
    by_cases h : pyIsSpace a
    · simpa [keepNonSpace, List.dropWhile, h, List.filter] using ih
    · simp [List.dropWhile, h]

lemma keepNonSpace_reverse (l : List Char) :
    keepNonSpace l.reverse = (keepNonSpace l).reverse := by
  simp [keepNonSpace, List.filter_reverse]

lemma keepNonSpace_pyStrip (l : List Char) :
    keepNonSpace (pyStrip l) = keepNonSpace l := by
  unfold pyStrip
  rw [keepNonSpace_reverse, keepNonSpace_dropWhile, keepNonSpace_reverse,
    List.reverse_reverse, keepNonSpace_dropWhile]

lemma keepNonSpace_append (a b : List Char) :
    keepNonSpace (a ++ b) = keepNonSpace a ++ keepNonSpace b := by
  simp [keepNonSpace, List.filter_append]

lemma keepNonSpace_take_drop (k : Nat) (l : List Char) :
    keepNonSpace (l.take k) ++ keepNonSpace (l.drop k) = keepNonSpace l := by
  rw [← keepNonSpace_append, List.take_append_drop]

/-! ### Bounds on the backward scan and the chosen split index -/

lemma boundaryScan_le (text : List Char) (fb N : Nat) (hfb : fb ≤ N) :
    ∀ i best, i ≤ N → best ≤ N → boundaryScan text fb i best ≤ N := by
  intro i
  induction i with
  | zero =>
    intro best hi hbest
    simp only [boundaryScan]
    split <;> assumption
  | succ i ih =>
    intro best hi hbest
    simp only [boundaryScan]
    split
    · exact hi
    · split
      · exact ih _ (by omega) hi
      · exact ih _ (by omega) hbest

lemma boundaryScan_pos (text : List Char) (fb : Nat) (hfb : 0 < fb) :
    ∀ i best, 0 < boundaryScan text fb i best := by
  intro i
  induction i with
  | zero =>
    intro best
    simp only [boundaryScan]
    split
    · assumption
    · exact hfb
  | succ i ih =>
    intro best
    simp only [boundaryScan]
    split
    · omega
    · split
      · exact ih _
      · exact ih _

lemma findSentenceBoundary_over (r : List Char) (h : TWEET_LIMIT < r.length) :
    findSentenceBoundary r TWEET_LIMIT = boundaryScan r 240 240 0 := by
  have h240 : min (TWEET_LIMIT - 20) r.length = 240 := by
    unfold TWEET_LIMIT at h ⊢
    omega
  unfold findSentenceBoundary
  rw [if_neg (by omega), h240]

lemma chooseSplit_bounds (r : List Char) (h : TWEET_LIMIT < r.length) :
    1 ≤ chooseSplit r ∧ chooseSplit r ≤ 240 := by
  unfold chooseSplit
  rw [findSentenceBoundary_over r h]
  have hpos : 0 < boundaryScan r 240 240 0 := boundaryScan_pos r 240 (by omega) 240 0
  have hle : boundaryScan r 240 240 0 ≤ 240 :=
    boundaryScan_le r 240 240 (le_refl _) 240 0 (le_refl _) (by omega)
  rw [if_neg (by omega)]
  exact ⟨hpos, hle⟩

/-! ### The main loop: fragment bounds, fuel irrelevance, content preservation -/

lemma splitLoopF_mem_length :
    ∀ (fuel : Nat) (c t : List Char), t ∈ splitLoopF fuel c → t.length ≤ TWEET_LIMIT := by
  intro fuel
  induction fuel with
  | zero => intro c t ht; simp [splitLoopF] at ht
  | succ fuel ih =>
    intro c t ht
    simp only [splitLoopF] at ht
    by_cases h0 : (pyStrip c).length = 0
    · simp [h0] at ht
    · rw [if_neg h0] at ht
      by_cases h1 : (pyStrip c).length ≤ TWEET_LIMIT
      · rw [if_pos h1] at ht
        rcases List.mem_singleton.mp ht with rfl
        exact h1
      · rw [if_neg h1] at ht
        rcases List.mem_cons.mp ht with rfl | hmem
        · have hk : chooseSplit (pyStrip c) ≤ 240 :=
            (chooseSplit_bounds (pyStrip c) (by omega)).2
          calc (pyStrip ((pyStrip c).take (chooseSplit (pyStrip c)))).length
              ≤ ((pyStrip c).take (chooseSplit (pyStrip c))).length := pyStrip_length_le _
            _ ≤ chooseSplit (pyStrip c) := by
                rw [List.length_take]; omega
            _ ≤ TWEET_LIMIT := by unfold TWEET_LIMIT; omega
        · exact ih _ _ hmem

lemma splitLoopF_fuel_irrel :
    ∀ (f1 f2 : Nat) (c : List Char), c.length < f1 → c.length < f2 →
      splitLoopF f1 c = splitLoopF f2 c := by
  intro f1
  induction f1 with
  | zero => intro f2 c h1 h2; omega
  | succ f1 ih =>
    intro f2 c h1 h2
    match f2, h2 with
    | f2 + 1, h2 =>
      simp only [splitLoopF]
      by_cases h0 : (pyStrip c).length = 0
      · simp [h0]
      · rw [if_neg h0, if_neg h0]
        by_cases hsmall : (pyStrip c).length ≤ TWEET_LIMIT
        · rw [if_pos hsmall, if_pos hsmall]
        · rw [if_neg hsmall, if_neg hsmall]
          have hstrip : (pyStrip c).length ≤ c.length := pyStrip_length_le c
          have hk1 : 1 ≤ chooseSplit (pyStrip c) :=
            (chooseSplit_bounds (pyStrip c) (by omega)).1
          have hdrop : ((pyStrip c).drop (chooseSplit (pyStrip c))).length < c.length := by
            rw [List.length_drop]
            omega
          rw [ih f2 _ (by omega) (by omega)]

lemma splitLoopF_filter :
    ∀ (fuel : Nat) (c : List Char), c.length < fuel →
      keepNonSpace (splitLoopF fuel c).flatten = keepNonSpace c := by
  intro fuel
  induction fuel with
  | zero => intro c h; omega
  | succ fuel ih =>
    intro c h
    simp only [splitLoopF]
    by_cases h0 : (pyStrip c).length = 0
    · rw [if_pos h0, ← keepNonSpace_pyStrip c, List.eq_nil_of_length_eq_zero h0]
      rfl
    · rw [if_neg h0]
      by_cases hsmall : (pyStrip c).length ≤ TWEET_LIMIT
      · rw [if_pos hsmall]
        simp [List.flatten, keepNonSpace_pyStrip]
      · rw [if_neg hsmall]
        have hstrip : (pyStrip c).length ≤ c.length := pyStrip_length_le c
        have hk1 : 1 ≤ chooseSplit (pyStrip c) :=
          (chooseSplit_bounds (pyStrip c) (by omega)).1
        rw [List.flatten_cons, keepNonSpace_append, keepNonSpace_pyStrip,
          ih _ (by rw [List.length_drop]; omega),
          keepNonSpace_take_drop, keepNonSpace_pyStrip]

/-! ### The repair pass -/

lemma repairF_id :
    ∀ (fuel : Nat) (l : List (List Char)),
      (∀ t ∈ l, t.length ≤ TWEET_LIMIT) → repairF fuel l = l := by
  intro fuel
  induction fuel with
  | zero => intro l _; rfl
  | succ fuel ih =>
    intro l hl
    match l with
    | [] => rfl
    | t :: rest =>
      have ht : t.length ≤ TWEET_LIMIT := hl t (List.mem_cons_self t rest)
      simp only [repairF]
      rw [if_neg (by omega), ih rest (fun u hu => hl u (List.mem_cons_of_mem t hu))]

lemma repairF_mem_length :
    ∀ (fuel : Nat) (l : List (List Char)), sumLen l + l.length < fuel →
      ∀ t ∈ repairF fuel l, t.length ≤ TWEET_LIMIT := by
  intro fuel
  induction fuel with
  | zero => intro l h; omega
  | succ fuel ih =>
    intro l h t ht
    match l with
    | [] => simp [repairF] at ht
    | u :: rest =>
      have hsum : sumLen (u :: rest) = u.length + sumLen rest := by
        simp [sumLen]
      by_cases hu : TWEET_LIMIT < u.length
      · rw [repairF, if_pos hu] at ht
        rcases List.mem_cons.mp ht with rfl | hmem
        · calc (pyStrip (u.take (TWEET_LIMIT - 20))).length
              ≤ (u.take (TWEET_LIMIT - 20)).length := pyStrip_length_le _
            _ ≤ TWEET_LIMIT - 20 := by rw [List.length_take]; omega
            _ ≤ TWEET_LIMIT := by omega
        · apply ih _ _ _ hmem
          have hsecond : (pyStrip (u.drop (TWEET_LIMIT - 20))).length ≤
              u.length - (TWEET_LIMIT - 20) := by
            calc (pyStrip (u.drop (TWEET_LIMIT - 20))).length
                ≤ (u.drop (TWEET_LIMIT - 20)).length := pyStrip_length_le _
              _ = u.length - (TWEET_LIMIT - 20) := List.length_drop _ _
          have hs2 : sumLen (pyStrip (u.drop (TWEET_LIMIT - 20)) :: rest) =
              (pyStrip (u.drop (TWEET_LIMIT - 20))).length + sumLen rest := by
            simp [sumLen]
          have h260 : TWEET_LIMIT = 260 := rfl
          rw [hsum] at h
          simp only [List.length_cons] at h ⊢
          rw [hs2]
          omega
      · rw [repairF, if_neg hu] at ht
        rcases List.mem_cons.mp ht with rfl | hmem
        · omega
        · apply ih _ _ _ hmem
          simp only [List.length_cons] at h
          omega

lemma repairF_filter :
    ∀ (fuel : Nat) (l : List (List Char)),
      keepNonSpace (repairF fuel l).flatten = keepNonSpace l.flatten := by
  intro fuel
  induction fuel with
  | zero => intro l; rfl
  | succ fuel ih =>
    intro l
    match l with
    | [] => rfl
    | u :: rest =>
      by_cases hu : TWEET_LIMIT < u.length
      · rw [repairF, if_pos hu, List.flatten_cons, keepNonSpace_append,
          keepNonSpace_pyStrip, ih, List.flatten_cons, keepNonSpace_append,
          keepNonSpace_pyStrip, List.flatten_cons, keepNonSpace_append,
          ← List.append_assoc, keepNonSpace_take_drop]
      · rw [repairF, if_neg hu, List.flatten_cons, keepNonSpace_append, ih,
          List.flatten_cons, keepNonSpace_append]

/-! ### Segment-level helpers -/

lemma splitIntoTweets_mem_length (content t : List Char)
    (ht : t ∈ splitIntoTweets content) : t.length ≤ TWEET_LIMIT := by
  unfold splitIntoTweets repairPass at ht
  exact repairF_mem_length _ _ (by omega) t ht

lemma splitIntoTweets_filter (content : List Char) :
    keepNonSpace (splitIntoTweets content).flatten = keepNonSpace content := by
  unfold splitIntoTweets repairPass
  rw [repairF_filter, splitLoopF_filter _ _ (by omega)]

lemma joinWithSpace_filter :
    ∀ (l : List (List Char)), keepNonSpace (joinWithSpace l) = keepNonSpace l.flatten := by
  intro l
  induction l with
  | nil => rfl
  | cons u rest ih =>
    match rest with
    | [] => simp [joinWithSpace, List.flatten]
    | v :: rest2 =>
      have hjw : joinWithSpace (u :: v :: rest2) = u ++ ' ' :: joinWithSpace (v :: rest2) := rfl
      rw [hjw, List.flatten_cons, keepNonSpace_append, keepNonSpace_append]
      have hsp : keepNonSpace (' ' :: joinWithSpace (v :: rest2)) =
          keepNonSpace (joinWithSpace (v :: rest2)) := by
        simp [keepNonSpace, List.filter, pyIsSpace]
      rw [hsp, ih]

/-! ### Characterization of the backward scan -/

lemma isTermAt_pos (text : List Char) (j : Nat) (h : isTermAt text j = true) : 1 ≤ j := by
  unfold isTermAt at h
  simp only [Bool.and_eq_true, decide_eq_true_eq] at h
  exact h.1

lemma hasSpaceAt_pos (text : List Char) (j : Nat) (h : hasSpaceAt text j = true) : 1 ≤ j := by
  unfold hasSpaceAt at h
  simp only [Bool.and_eq_true, decide_eq_true_eq] at h
  exact h.1

lemma boundaryScan_term_findGreatest (text : List Char) (fb : Nat) :
    ∀ i best, (∃ j, j ≤ i ∧ isTermAt text j = true) →
      boundaryScan text fb i best =
        Nat.findGreatest (fun j => isTermAt text j = true) i := by
  intro i
  induction i with
  | zero =>
    intro best hex
    obtain ⟨j, hj, hterm⟩ := hex
    have := isTermAt_pos text j hterm
    omega
  | succ i ih =>
    intro best hex
    simp only [boundaryScan]
    by_cases ht : isTermAt text (i + 1) = true
    · rw [if_pos ht, Nat.findGreatest_succ, if_pos ht]
    · rw [if_neg ht, Nat.findGreatest_succ, if_neg ht]
      have hex2 : ∃ j, j ≤ i ∧ isTermAt text j = true := by
        obtain ⟨j, hj, hterm⟩ := hex
        rcases Nat.lt_or_ge j (i + 1) with hlt | hge
        · exact ⟨j, by omega, hterm⟩
        · have hji : j = i + 1 := by omega
          rw [hji] at hterm
          exact absurd hterm ht
      split
      · exact ih _ hex2
      · exact ih _ hex2

lemma boundaryScan_freeze (text : List Char) (fb : Nat) :
    ∀ i best, (∀ j, j ≤ i → isTermAt text j = false) → 0 < best →
      boundaryScan text fb i best = best := by
  intro i
  induction i with
  | zero =>
    intro best _ hbest
    simp only [boundaryScan]
    rw [if_pos hbest]
  | succ i ih =>
    intro best hno hbest
    simp only [boundaryScan]
    rw [if_neg (by simp [hno (i + 1) (le_refl _)])]
    have hb0 : (best == 0) = false := by
      simp only [beq_eq_false_iff_ne]
      omega
    rw [hb0, Bool.false_and, if_neg (by simp)]
    exact ih best (fun j hj => hno j (by omega)) hbest

lemma boundaryScan_no_term (text : List Char) (fb : Nat) :
    ∀ i, (∀ j, j ≤ i → isTermAt text j = false) →
      boundaryScan text fb i 0 =
        if Nat.findGreatest (fun j => hasSpaceAt text j = true) i = 0 then fb
        else Nat.findGreatest (fun j => hasSpaceAt text j = true) i := by
  intro i
  induction i with
  | zero =>
    intro _
    simp [boundaryScan, Nat.findGreatest]
  | succ i ih =>
    intro hno
    simp only [boundaryScan]
    rw [if_neg (by simp [hno (i + 1) (le_refl _)])]
    by_cases hs : spaceAt text (i + 1) = true
    · rw [if_pos (by simp [hs])]
      rw [boundaryScan_freeze text fb i (i + 1) (fun j hj => hno j (by omega)) (by omega)]
      have hP : hasSpaceAt text (i + 1) = true := by
        simp [hasSpaceAt, hs]
      rw [Nat.findGreatest_succ, if_pos hP, if_neg (by omega)]
    · rw [if_neg (by simp [hs])]
      have hP : ¬ hasSpaceAt text (i + 1) = true := by
        simp [hasSpaceAt, hs]
      rw [ih (fun j hj => hno j (by omega)), Nat.findGreatest_succ, if_neg hP]

/-! ### Claim theorems -/

/-- Claim C1: every fragment returned by the segmenter has length at most
260, including fragments produced from a single over-long token. -/
theorem claim1_fragment_length_le (content t : List Char)
    (ht : t ∈ splitIntoTweets content) : t.length ≤ 260 :=
  splitIntoTweets_mem_length content t ht

/-- Witness for claim C1, on a single 400-character token. -/
theorem claim1_witness :
    List.replicate 240 'a' ∈ splitIntoTweets (List.replicate 400 'a') ∧
      (List.replicate 240 'a').length ≤ 260 :=
  ⟨by decide,
    claim1_fragment_length_le (List.replicate 400 'a') (List.replicate 240 'a') (by decide)⟩

/-- Claim C2: concatenating the returned fragments reproduces exactly the
non-whitespace characters of the input, in order. -/
theorem claim2_content_preserved (content : List Char) :
    keepNonSpace (splitIntoTweets content).flatten = keepNonSpace content :=
  splitIntoTweets_filter content

/-- Counterexample to claim C3: on the 261-character input whose sentence
ending straddles position 255, the first fragment is the 240-character
hard cut, not the trimmed 255-character prefix ending at the terminator. -/
theorem claim3_counterexample :
    (splitIntoTweets exampleD).headI = List.replicate 240 'a' ∧
      (splitIntoTweets exampleD).headI ≠ pyStrip (exampleD.take 255) := by
  decide

/-- Claim C3 as amended: with limit 260 the scan range stops at
260 - 20 = 240, so the terminator straddling position 255 is never
examined and the input is cut at the hard cutoff 240. -/
theorem claim3_amended :
    splitIntoTweets exampleD =
      [List.replicate 240 'a', List.replicate 14 'a' ++ '.' :: ' ' :: List.replicate 5 'a'] := by
  decide

/-- Counterexample to claim C4: a period not followed by a space or
newline does not qualify as a cut point.  In this input the largest
position whose straddling characters contain terminator punctuation, in
the sense of the claim, is 101, yet the code cuts at the fallback 240. -/
theorem claim4_counterexample :
    Nat.findGreatest (fun j => specTermAt exampleBarePeriod j = true) 240 = 101 ∧
      chooseSplit exampleBarePeriod = 240 := by
  decide

/-- Claim C4 as amended: when the remaining text exceeds the limit, the
chosen cut point is the largest position in the scanned range whose two
straddling characters form one of the six two-character sentence endings
(punctuation followed by a space or newline), whenever one exists. -/
theorem claim4_amended (text : List Char) (hlen : 260 < text.length)
    (hex : ∃ j, j ≤ 240 ∧ isTermAt text j = true) :
    chooseSplit text = Nat.findGreatest (fun j => isTermAt text j = true) 240 := by
  unfold chooseSplit
  rw [findSentenceBoundary_over text hlen,
    boundaryScan_term_findGreatest text 240 240 0 hex]
  obtain ⟨j, hj, ht⟩ := hex
  have h1 : 1 ≤ j := isTermAt_pos text j ht
  have hle : j ≤ Nat.findGreatest (fun j => isTermAt text j = true) 240 :=
    Nat.le_findGreatest hj ht
  rw [if_neg (by omega)]

/-- Witness for the amended claim C4. -/
theorem claim4_witness :
    chooseSplit exampleTermSpace =
      Nat.findGreatest (fun j => isTermAt exampleTermSpace j = true) 240 :=
  claim4_amended exampleTermSpace (by decide) ⟨101, by decide, by decide⟩

/-- Claim C5: when no sentence ending lies in the scanned range, the cut
point is the rightmost plain space among the scanned positions. -/
theorem claim5_rightmost_space (text : List Char) (hlen : 260 < text.length)
    (hnoterm : ∀ j, j ≤ 240 → isTermAt text j = false)
    (hex : ∃ j, j ≤ 240 ∧ hasSpaceAt text j = true) :
    chooseSplit text = Nat.findGreatest (fun j => hasSpaceAt text j = true) 240 := by
  unfold chooseSplit
  rw [findSentenceBoundary_over text hlen, boundaryScan_no_term text 240 240 hnoterm]
  obtain ⟨j, hj, hs⟩ := hex
  have h1 : 1 ≤ j := hasSpaceAt_pos text j hs
  have hle : j ≤ Nat.findGreatest (fun j => hasSpaceAt text j = true) 240 :=
    Nat.le_findGreatest hj hs
  have hfg : ¬(Nat.findGreatest (fun j => hasSpaceAt text j = true) 240 = 0) := by omega
  rw [if_neg hfg, if_neg hfg]

/-- Witness for claim C5. -/
theorem claim5_witness :
    chooseSplit exampleSpaceOnly =
      Nat.findGreatest (fun j => hasSpaceAt exampleSpaceOnly j = true) 240 :=
  claim5_rightmost_space exampleSpaceOnly (by decide) (by decide) ⟨100, by decide, by decide⟩

/-- Claim C6, code side: the only function that receives a length limit,
find_sentence_boundary, silently returns the nonsense index
max_length - 20 = -20 when called with max_length = 0 on a 30-character
text, instead of failing with an invalid-argument signal; the outer
segmenter accepts no limit argument and performs no validation at all. -/
theorem claim6_no_limit_validation :
    findSentenceBoundaryInt (List.replicate 30 'a') 0 = -20 := by
  decide

/-- Claim C7: the segmenter terminates on every input.  Whenever the
remaining text exceeds the limit the chosen cut point is strictly
positive and strictly before the end, so each iteration strictly shrinks
the remaining text, and any fuel beyond length + 1 gives the same
result. -/
theorem claim7_terminates :
    (∀ text : List Char, 260 < text.length →
        0 < chooseSplit text ∧ chooseSplit text < text.length) ∧
      (∀ (content : List Char) (fuel : Nat), content.length < fuel →
        splitLoopF fuel content = splitLoopF (content.length + 1) content) := by
  constructor
  · intro text hlen
    obtain ⟨h1, h2⟩ := chooseSplit_bounds text hlen
    constructor
    · omega
    · omega
  · intro content fuel hf
    exact splitLoopF_fuel_irrel fuel (content.length + 1) content hf (by omega)

/-- Witness for claim C7. -/
theorem claim7_witness :
    0 < chooseSplit (List.replicate 300 'a') ∧
      chooseSplit (List.replicate 300 'a') < (List.replicate 300 'a').length :=
  claim7_terminates.1 (List.replicate 300 'a') (by decide)

/-- Claim C8: empty or whitespace-only content yields the empty sequence;
content of length at most the limit that is not whitespace-only yields
exactly one fragment, the trimmed content. -/
theorem claim8_trivial_cases (content : List Char) :
    (pyStrip content = [] → splitIntoTweets content = []) ∧
      (pyStrip content ≠ [] → content.length ≤ 260 →
        splitIntoTweets content = [pyStrip content]) := by
  have h260 : TWEET_LIMIT = 260 := rfl
  constructor
  · intro h
    unfold splitIntoTweets
    have hloop : splitLoopF (content.length + 1) content = [] := by
      simp only [splitLoopF]
      rw [if_pos (by rw [h]; rfl)]
    rw [hloop]
    rfl
  · intro hne hlen
    unfold splitIntoTweets
    have hstrip := pyStrip_length_le content
    have hT : (pyStrip content).length ≤ TWEET_LIMIT := by omega
    have hloop : splitLoopF (content.length + 1) content = [pyStrip content] := by
      simp only [splitLoopF]
      rw [if_neg (fun h0 => hne (List.eq_nil_of_length_eq_zero h0)), if_pos hT]
    rw [hloop]
    unfold repairPass
    apply repairF_id
    intro t ht
    rw [List.mem_singleton.mp ht]
    exact hT

/-- Witness for claim C8: a whitespace-only input and a short input. -/
theorem claim8_witness :
    splitIntoTweets [' ', '\t'] = [] ∧
      splitIntoTweets [' ', 'h', 'i', ' '] = [['h', 'i']] := by
  constructor
  · exact (claim8_trivial_cases [' ', '\t']).1 (by decide)
  · exact ((claim8_trivial_cases [' ', 'h', 'i', ' ']).2 (by decide) (by decide)).trans
      (by decide)

/-- Claim C9: re-running the segmenter on its own output rejoined with
single spaces yields output with the same non-whitespace text content. -/
theorem claim9_idempotent (content : List Char) :
    keepNonSpace (splitIntoTweets (joinWithSpace (splitIntoTweets content))).flatten =
      keepNonSpace (splitIntoTweets content).flatten := by
  rw [splitIntoTweets_filter, joinWithSpace_filter, splitIntoTweets_filter]

/-- Claim C10: the repair pass is unreachable.  Every cut point chosen on
over-long text is at most 240, every fragment the main loop emits is
already within the limit, and the repair pass leaves the loop output
unchanged. -/
theorem claim10_repair_unreachable :
    (∀ text : List Char, 260 < text.length → chooseSplit text ≤ 240) ∧
      (∀ content : List Char,
        (∀ t ∈ splitLoopF (content.length + 1) content, t.length ≤ 260) ∧
          repairPass (splitLoopF (content.length + 1) content) =
            splitLoopF (content.length + 1) content) := by
  constructor
  · intro text h
    exact (chooseSplit_bounds text h).2
  · intro content
    refine ⟨fun t ht => splitLoopF_mem_length _ _ t ht, ?_⟩
    unfold repairPass
    exact repairF_id _ _ (fun t ht => splitLoopF_mem_length _ _ t ht)

/-- Witness for claim C10. -/
theorem claim10_witness :
    chooseSplit (List.replicate 300 'a') ≤ 240 ∧
      repairPass (splitLoopF ((List.replicate 300 'a').length + 1) (List.replicate 300 'a')) =
        splitLoopF ((List.replicate 300 'a').length + 1) (List.replicate 300 'a') :=
  ⟨claim10_repair_unreachable.1 (List.replicate 300 'a') (by decide),
    (claim10_repair_unreachable.2 (List.replicate 300 'a')).2⟩

end Crobot
